import Mathlib

/-!
# Verification of the exprtk symbolic-algebra core

A shallow embedding, in Lean 4, of the computer-algebra core found in this
repository: exact rationals (`FieldOfFractions` over the arbitrary-precision
integer `MPi`), the expression tree, the total order `cmp_expression`, the
infix printer, and the automatic simplifier (`Simplifier::automatic_simplify`
and friends from `src/symbolic/compare.cpp`), together with theorems settling
the specification's claims about them.

Machine integers are modelled by `Int`/`Nat` (the repository uses GMP big
integers, whose arithmetic is exact, so `Int` is a faithful model).
C++ exceptions are modelled with `Except`; the simplifier family, whose
recursion has no obvious structural measure, takes an explicit fuel argument
(running out of fuel is distinguished from a thrown exception).
-/

namespace Exprtk

/-! ## Integer helpers (math_functions.hpp / mpi.hpp)

`MPi` division is `mpz_tdiv_q` (truncation toward zero) which is `Int.tdiv`;
`math::gcd` on `MPi` is `mpz_gcd` (gcd of absolute values, non-negative),
which is `Int.gcd`; `math::sign` is `mpz_sgn`, which is `Int.sign`.
-/

/-- The square-and-multiply loop of `math::impl::pow<MPi, MPi>` (mpi.hpp),
fuel-indexed (the loop halves its exponent, which is not structural): while
the exponent is positive, an even exponent is halved exactly and the base
squared; an odd exponent is multiplied into the accumulator, the exponent
floor-halved, and the base squared. -/
def intPowLoopF : Nat → Int → Int → Nat → Int
  | 0, _, ret, _ => ret
  | f + 1, base, ret, e =>
    if e = 0 then ret
    else if e % 2 = 0 then intPowLoopF f (base * base) ret (e / 2)
    else intPowLoopF f (base * base) (ret * base) (e / 2)

/-- The loop of `math::impl::pow<MPi, MPi>` with sufficient fuel. -/
def intPowLoop (base ret : Int) (e : Nat) : Int :=
  intPowLoopF (e + 1) base ret e

/-- `math::impl::pow<MPi, MPi>` (mpi.hpp): negative exponents yield `0`
(the value is not representable as an integer); otherwise fast
exponentiation. -/
def intPow (b e : Int) : Int :=
  if e < 0 then 0 else intPowLoop b 1 e.toNat

/-! ## Exact rationals: `FieldOfFractions<MPi>` (rational.hpp) -/

/-- A fraction as stored by `FieldOfFractions`: a numerator and denominator
over big integers, with no implicit normalization. -/
structure Frac where
  num : Int
  denom : Int
deriving Repr, DecidableEq

/-- `FieldOfFractions::simplify_fraction`: divide through by the
(non-negative) gcd, then move the denominator's sign into the numerator. -/
def Frac.simplifyFraction (f : Frac) : Frac :=
  let g : Int := Int.gcd f.num f.denom
  let n := f.num.tdiv g
  let d := f.denom.tdiv g
  ⟨n * d.sign, d * d.sign⟩

/-- The normalizing constructor `FieldOfFractions(num, denom)` (the
`is_coprime` flag defaults to `false`, so `simplify_fraction` runs). -/
def mkFrac (n d : Int) : Frac := Frac.simplifyFraction ⟨n, d⟩

/-- `FieldOfFractions(v)` from a single integer: denominator `1`. -/
def mkFracInt (n : Int) : Frac := mkFrac n 1

/-- The three-way comparison `mpz_cmp` produces, mapped onto `Ordering`
exactly as every call site maps `< 0 / == 0 / > 0`. -/
def intCmp (a b : Int) : Ordering :=
  if a < b then .lt else if a = b then .eq else .gt

/-- `operator<=>(FieldOfFractions, FieldOfFractions)`:
`lhs.num() * rhs.denom() <=> rhs.num() * lhs.denom()`. -/
def Frac.cmp (a b : Frac) : Ordering :=
  intCmp (a.num * b.denom) (b.num * a.denom)

/-- `operator<=>(FieldOfFractions, U)` for a machine integer `rhs`:
`lhs.num() <=> rhs * lhs.denom()`. -/
def Frac.cmpInt (a : Frac) (k : Int) : Ordering :=
  intCmp a.num (k * a.denom)

/-- `operator+=` then renormalize. -/
def Frac.add (a b : Frac) : Frac :=
  mkFrac (a.num * b.denom + b.num * a.denom) (a.denom * b.denom)

/-- `operator-=` then renormalize. -/
def Frac.sub (a b : Frac) : Frac :=
  mkFrac (a.num * b.denom - b.num * a.denom) (a.denom * b.denom)

/-- `operator*=` then renormalize. -/
def Frac.mul (a b : Frac) : Frac :=
  mkFrac (a.num * b.num) (a.denom * b.denom)

/-- `operator/=` then renormalize. -/
def Frac.div (a b : Frac) : Frac :=
  mkFrac (a.num * b.denom) (a.denom * b.num)

/-- `math::impl::pow<FieldOfFractions<T>, T>` (rational.hpp): a negative
integer exponent raises the swapped pair, a non-negative one powers the
components; the normalizing constructor runs either way. -/
def Frac.powInt (b : Frac) (e : Int) : Frac :=
  if e < 0 then mkFrac (intPow b.denom (-e)) (intPow b.num (-e))
  else mkFrac (intPow b.num e) (intPow b.denom e)

/-- `math::is_integer` on a `FieldOfFractions<MPi>`: the denominator equals
`1` (`is_integer` on `MPi` itself is constantly true). -/
def Frac.isInteger (f : Frac) : Bool := f.denom = 1

/-- The invariant of §4.2: stored in lowest terms with positive denominator. -/
def Frac.normalized (f : Frac) : Prop := Int.gcd f.num f.denom = 1 ∧ 0 < f.denom

instance (f : Frac) : Decidable f.normalized := by
  unfold Frac.normalized; infer_instance

/-! ## The expression tree (expression.hpp)

`ExpressionBase` with its seven concrete variants.  `Power` always has
exactly two children (its constructor takes base and exponent), so it is
embedded with two explicit fields; every other node carries its children
list.  The payload of `Number` is a raw `Frac`, exactly as `Number` stores a
`FieldOfFractions<MPi>` value. -/

inductive Expr : Type where
  | num : Frac → Expr
  | prod : List Expr → Expr
  | pow : Expr → Expr → Expr
  | sum : List Expr → Expr
  | fn : String → List Expr → Expr
  | sym : String → Expr
  | undef : Expr
deriving Repr

/-- The `Kind` enumerator value of a node (`enum class Kind : int`). -/
def Expr.kindTag : Expr → Nat
  | .num _ => 0
  | .prod _ => 1
  | .pow _ _ => 2
  | .sum _ => 3
  | .fn _ _ => 4
  | .sym _ => 5
  | .undef => 6

mutual

/-- Structural size of an expression (leaves count 1, `Power` is padded by
one extra unit), the measure for the recursions below. -/
def Expr.size : Expr → Nat
  | .num _ => 1
  | .prod cs => 1 + Expr.sizeList cs
  | .pow b e => 2 + b.size + e.size
  | .sum cs => 1 + Expr.sizeList cs
  | .fn _ args => 1 + Expr.sizeList args
  | .sym _ => 1
  | .undef => 1

/-- Total size of a list of expressions, padded by one unit per element. -/
def Expr.sizeList : List Expr → Nat
  | [] => 0
  | x :: xs => 1 + x.size + Expr.sizeList xs

end

/-! ## The total order (compare.cpp / compare.hpp)

`cmp_expression` recurses through argument swaps and tail-first list
comparisons; its termination measure is not structural, so the recursion is
driven by an explicit fuel argument with one unit consumed per recursive
call.  `cmpMeasure` strictly decreases along every recursive call, so the
fuel `cmpMeasure + 1` supplied by the `cmpExpr` / `cmpListRev` wrappers can
never run out, and `cmpRun_congr` below shows that any two sufficient fuels
compute the same answer. -/

/-- `std::string` three-way comparison (lexicographic). -/
def strCmpAux : List Char → List Char → Ordering
  | [], [] => .eq
  | [], _ :: _ => .lt
  | _ :: _, [] => .gt
  | c :: cs, d :: ds =>
    if c.toNat < d.toNat then .lt
    else if d.toNat < c.toNat then .gt
    else strCmpAux cs ds

def strCmp (a b : String) : Ordering := strCmpAux a.data b.data

/-- A pending comparison: a pair of expressions (`cmp_expression`) or a pair
of already-reversed children lists (`cmp_expression_list`). -/
inductive CmpCall where
  | expr (l r : Expr)
  | list (ls rs : List Expr)

/-- Strict upper bound on the depth of recursion of `cmp_expression` from a
given call: every recursive call strictly decreases it. -/
def cmpMeasure : CmpCall → Nat
  | .expr l r => 8 * (l.size + r.size) + l.kindTag
  | .list ls rs => 8 * (Expr.sizeList ls + Expr.sizeList rs)

/-- `cmp_expression` / `cmp_expression_list` (compare.cpp, compare.hpp),
fuel-indexed.  If the left kind is the greater, the reversed comparison is
computed and flipped; then the switch on the left kind, each case checking
whether the right side has the same kind and otherwise applying the generic
cross-kind rule of that case.  List comparison walks the two (reversed)
lists pairwise; if no pair decides, the shorter list compares less. -/
def cmpRun : Nat → CmpCall → Ordering
  | 0, _ => .eq
  | f + 1, .expr l r =>
    if Expr.kindTag r < Expr.kindTag l then (cmpRun f (.expr r l)).swap
    else
      match l, r with
      | .num v, .num w => Frac.cmp v w
      | .num _, _ => .lt
      | .prod cs, .prod ds => cmpRun f (.list cs.reverse ds.reverse)
      | .prod cs, t => cmpRun f (.list cs.reverse [t])
      | .pow b e, .pow b' e' =>
        match cmpRun f (.expr b b') with
        | .eq => cmpRun f (.expr e e')
        | c => c
      | .pow b e, t =>
        match cmpRun f (.expr b t) with
        | .eq => cmpRun f (.expr e (.num (mkFracInt 1)))
        | c => c
      | .sum cs, .sum ds => cmpRun f (.list cs.reverse ds.reverse)
      | .sum cs, t => cmpRun f (.list cs.reverse [t])
      | .fn n args, .fn n' args' =>
        match strCmp n n' with
        | .eq => cmpRun f (.list args.reverse args'.reverse)
        | c => c
      | .fn _ args, t => cmpRun f (.list args.reverse [t])
      | .sym n, .sym n' => strCmp n n'
      | .sym _, _ => .lt
      | .undef, .undef => .eq
      | .undef, _ => .lt
  | f + 1, .list ls rs =>
    match ls, rs with
    | [], [] => .eq
    | [], _ :: _ => .lt
    | _ :: _, [] => .gt
    | x :: xs, y :: ys =>
      match cmpRun f (.expr x y) with
      | .eq => cmpRun f (.list xs ys)
      | c => c

/-- `cmp_expression`: the comparison run with sufficient fuel. -/
def cmpExpr (l r : Expr) : Ordering :=
  cmpRun (cmpMeasure (.expr l r) + 1) (.expr l r)

/-- `cmp_expression_list` on two already-reversed lists, run with sufficient
fuel. -/
def cmpListRev (ls rs : List Expr) : Ordering :=
  cmpRun (cmpMeasure (.list ls rs) + 1) (.list ls rs)

/-- `cmp_base` (compare.hpp): compare the bases, a non-`Power` operand
standing for its own base. -/
def cmpBase (l r : Expr) : Ordering :=
  match l, r with
  | .pow lb _, .pow rb _ => cmpExpr lb rb
  | .pow lb _, _ => cmpExpr lb r
  | _, .pow rb _ => cmpExpr l rb
  | _, _ => cmpExpr l r

/-! ### Unfolding equations of the order, as computed by the C++ -/

/-! ### The order is oriented (reversal) and reflexive -/

/-! ## The infix printer (`str` in expression.hpp) -/

/-- `precedence(Kind)`: `Sum` 1, `Product` 2, `Power` 3, everything else the
maximal value (4 is equivalent to `INT_MAX` for every comparison made). -/
def precOf : Expr → Nat
  | .sum _ => 1
  | .prod _ => 2
  | .pow _ _ => 3
  | _ => 4

/-- `to_string(FieldOfFractions)`: `n` when the denominator is `1`, else
`n/d`. -/
def fracToString (f : Frac) : String :=
  if f.denom = 1 then toString f.num
  else toString f.num ++ "/" ++ toString f.denom

/-- The test `y->kind() == Kind::Number && get_as<Number>(y)->value == -1`
of `Product::str` (the `-1` comparison is the `FieldOfFractions`/int
spaceship). -/
def isNumNegOne : Expr → Bool
  | .num v => Frac.cmpInt v (-1) = .eq
  | _ => false

mutual

/-- The virtual `str()` renderers of expression.hpp. -/
def Expr.str : Expr → String
  | .num v => fracToString v
  | .sym n => n
  | .undef => "<Undefined>"
  | .pow b e => strBrace 3 b ++ "^" ++ strBrace 3 e
  | .sum cs => sumStrAux "" cs
  | .prod cs => prodStrAux "" cs
  | .fn n args => n ++ "(" ++ fnArgsAux "" args ++ ")"
termination_by e => 2 * e.size
decreasing_by
  all_goals simp_wf
  all_goals simp only [Expr.size, Expr.sizeList]
  all_goals omega

/-- `maybe_brace`: parenthesize a child of strictly lower precedence. -/
def strBrace (parentPrec : Nat) (c : Expr) : String :=
  if precOf c < parentPrec then "(" ++ c.str ++ ")" else c.str
termination_by 2 * c.size + 1
decreasing_by
  all_goals simp_wf
  all_goals simp only [Expr.size, Expr.sizeList]
  all_goals omega

/-- The accumulator loop of `Sum::str`: join by `+`, except that a rendering
that starts with `-` is appended without the `+`. -/
def sumStrAux (ret : String) : List Expr → String
  | [] => ret
  | y :: ys =>
    if ret = "" then sumStrAux (strBrace 1 y) ys
    else
      let s := strBrace 1 y
      if s.startsWith "-" then sumStrAux (ret ++ s) ys
      else sumStrAux (ret ++ "+" ++ s) ys
termination_by l => 2 * Expr.sizeList l + 1
decreasing_by
  all_goals simp_wf
  all_goals simp only [Expr.size, Expr.sizeList]
  all_goals omega

/-- The accumulator loop of `Product::str`: the first factor renders as `-`
alone when it is `Number(-1)` (`y->kind() == Number && value == -1`); every
later factor is appended as `"*" + maybe_brace(y)`. -/
def prodStrAux (ret : String) : List Expr → String
  | [] => ret
  | y :: ys =>
    if ret = "" then
      if isNumNegOne y then prodStrAux "-" ys
      else prodStrAux (strBrace 2 y) ys
    else prodStrAux (ret ++ "*" ++ strBrace 2 y) ys
termination_by l => 2 * Expr.sizeList l + 1
decreasing_by
  all_goals simp_wf
  all_goals simp only [Expr.size, Expr.sizeList]
  all_goals omega

/-- The accumulator loop of `Function::str`: arguments joined by `", "`,
rendered without parenthesization. -/
def fnArgsAux (acc : String) : List Expr → String
  | [] => acc
  | a :: rest =>
    if acc = "" then fnArgsAux a.str rest
    else fnArgsAux (acc ++ ", " ++ a.str) rest
termination_by l => 2 * Expr.sizeList l + 1
decreasing_by
  all_goals simp_wf
  all_goals simp only [Expr.size, Expr.sizeList]
  all_goals omega

end

/-! ## The simplifier (simplify.hpp / compare.cpp)

The `SimplificationContext` predicates, the `unpack_term` / `unpack_power`
helpers, and the mutually recursive `Simplifier` routines.  The recursion of
the simplifier proper has no structural measure (merging rebuilds and
re-simplifies subterms), so it takes explicit fuel; exhausted fuel is
`SimpErr.fuelOut`, a thrown C++ exception is `SimpErr.thrown`. -/

/-- `SimplificationContext::is_number`. -/
def isNumber : Expr → Bool
  | .num _ => true
  | _ => false

/-- `SimplificationContext::is_one`: a `Number` whose value compares equal to
`Number_t(1)`. -/
def isOne : Expr → Bool
  | .num v => Frac.cmp v (mkFracInt 1) = .eq
  | _ => false

/-- `SimplificationContext::is_zero`: a `Number` whose value compares equal
to `Number_t(0)`. -/
def isZero : Expr → Bool
  | .num v => Frac.cmp v (mkFracInt 0) = .eq
  | _ => false

/-- `SimplificationContext::is_integral`: a `Number` whose value satisfies
`math::is_integer`. -/
def isIntegral : Expr → Bool
  | .num v => v.isInteger
  | _ => false

/-- The payload of a `Number` node (`get_as<Number>(..)->value`; only ever
used under an `is_number` guard, the non-`Number` value is arbitrary). -/
def getNum : Expr → Frac
  | .num v => v
  | _ => ⟨0, 1⟩

mutual

/-- `SimplificationContext::is_constant` with a present variable list:
`Number` is constant, a `Symbol` is constant iff its name differs from every
listed variable, compound nodes are constant iff all children are, and
`Undefined` (the `default` case) is not constant. -/
def isConstant (t : Expr) (vars : List String) : Bool :=
  match t with
  | .num _ => true
  | .sym n => vars.all (fun name => n ≠ name)
  | .fn _ args => isConstantList args vars
  | .sum cs => isConstantList cs vars
  | .prod cs => isConstantList cs vars
  | .pow b e => isConstant b vars && isConstant e vars
  | .undef => false

/-- `is_constant` over a children list (`std::all_of`). -/
def isConstantList (l : List Expr) (vars : List String) : Bool :=
  match l with
  | [] => true
  | x :: xs => isConstant x vars && isConstantList xs vars

end

/-- The virtual `term()` accessor: `Product` drops a leading `Number` child
(keeping the `Product` wrapper); every other node is its own term.
(`children[0]` of an empty `Product` is out-of-bounds in the C++; the model
returns the product unchanged.) -/
def Expr.termAcc : Expr → Expr
  | .prod cs =>
    match cs with
    | c :: rest => if isNumber c then .prod rest else .prod (c :: rest)
    | [] => .prod []
  | e => e

/-- `unpack_term` (expression.hpp): split off a leading numeric factor,
leaving the remaining factors wrapped in the `Product`; otherwise the
constant is `Number(1)` and the term the value itself. -/
def unpackTerm : Expr → Expr × Expr
  | .prod cs =>
    match cs with
    | c :: rest =>
      if isNumber c then (c, .prod rest)
      else (.num (mkFracInt 1), .prod (c :: rest))
    | [] => (.num (mkFracInt 1), .prod [])
  | e => (.num (mkFracInt 1), e)

/-- `unpack_power` (expression.hpp): a `Power`'s two children, else
`(x, Number(1))`. -/
def unpackPower : Expr → Expr × Expr
  | .pow b e => (b, e)
  | e => (e, .num (mkFracInt 1))

/-- `assoc_expand<Kind::SumOp>`: splice the children of every direct `Sum`
child. -/
def assocExpandSum : List Expr → List Expr
  | [] => []
  | c :: cs =>
    (match c with
     | .sum ds => ds
     | _ => [c]) ++ assocExpandSum cs

/-- `assoc_expand<Kind::ProdOp>`: splice the children of every direct
`Product` child. -/
def assocExpandProd : List Expr → List Expr
  | [] => []
  | c :: cs =>
    (match c with
     | .prod ds => ds
     | _ => [c]) ++ assocExpandProd cs

/-- Insertion step for `sort_subexpressions`' comparator
`cmp_expression(lhs, rhs) < 0`. -/
def insertByCmp (x : Expr) : List Expr → List Expr
  | [] => [x]
  | y :: ys => if cmpExpr x y = .lt then x :: y :: ys else y :: insertByCmp x ys

/-- `sort_subexpressions`: `std::sort` under the `cmp_expression` comparator,
modelled as a deterministic (stable) insertion sort.  (`std::sort` leaves the
relative order of comparator-equal elements unspecified; the model fixes
it.) -/
def sortByCmp : List Expr → List Expr
  | [] => []
  | x :: xs => insertByCmp x (sortByCmp xs)

/-- The simplifier error kind: `fuelOut` marks exhausted fuel (an artifact of
the fuel-indexed model), `thrown` a `std::runtime_error` thrown by the C++
code. -/
inductive SimpErr where
  | fuelOut : SimpErr
  | thrown : SimpErr
deriving Repr, DecidableEq

/-- Result of a simplifier routine. -/
abbrev SimpRes := Except SimpErr Expr

/-- Monadic map over children, in order (`simplify_subexpressions` and the
`views::transform` uses). -/
def mapExc (g : Expr → SimpRes) : List Expr → Except SimpErr (List Expr)
  | [] => .ok []
  | x :: xs => do
    let y ← g x
    let ys ← mapExc g xs
    .ok (y :: ys)

/-- `combine_subexpressions` (compare.cpp): walk the input keeping an output
prefix (held in reverse); an empty output takes the next element unchanged,
otherwise the combiner replaces the pair (last output element, next input
element) by its returned zero-, one- or two-element list. -/
def mergeRev (comb : Expr → Expr → Except SimpErr (List Expr)) :
    List Expr → List Expr → Except SimpErr (List Expr)
  | acc, [] => .ok acc.reverse
  | [], x :: xs => mergeRev comb [x] xs
  | l :: accRest, x :: xs => do
    let repl ← comb l x
    mergeRev comb (repl.reverse ++ accRest) xs

/-- The calls of the mutually recursive `Simplifier` family (compare.cpp):
one constructor per routine. -/
inductive SimpCall where
  | impl (e : Expr)
  | sumOp (cs : List Expr)
  | prodOp (cs : List Expr)
  | power (b e : Expr)
  | intPower (b e : Expr)
  | func (name : String) (args : List Expr)
  | diffFn (args : List Expr)

/-- The combine lambda of `automatic_simplify_sum`: numbers are added
(dropping a zero result), a `Number(0)` operand is dropped, operands with
`cmp`-equal `term()`s merge into
`simplify_product(Product(simplify_sum(Sum(lc, rc)), lt))` (dropped if
zero), anything else emits both operands. -/
def sumCombine (rec : SimpCall → SimpRes) (lsub rsub : Expr) :
    Except SimpErr (List Expr) :=
  if isNumber lsub && isNumber rsub then
    let v := Frac.add (getNum lsub) (getNum rsub)
    if Frac.cmpInt v 0 = .eq then .ok [] else .ok [.num v]
  else if isZero lsub then .ok [rsub]
  else if isZero rsub then .ok [lsub]
  else if cmpExpr lsub.termAcc rsub.termAcc = .eq then do
    let lp := unpackTerm lsub
    let rp := unpackTerm rsub
    let nc ← rec (.sumOp [lp.1, rp.1])
    let nf ← rec (.prodOp [nc, lp.2])
    if isZero nf then .ok [] else .ok [nf]
  else .ok [lsub, rsub]

/-- The combine lambda of `automatic_simplify_product`: numbers are
multiplied (dropping a result equal to one), a `Number(1)` operand is
dropped, operands with `cmp_base`-equal bases merge into
`simplify_power(Power(lb, simplify_sum(Sum(le, re))))` (dropped if one),
anything else emits both operands. -/
def prodCombine (rec : SimpCall → SimpRes) (lsub rsub : Expr) :
    Except SimpErr (List Expr) :=
  if isNumber lsub && isNumber rsub then
    let v := Frac.mul (getNum lsub) (getNum rsub)
    if Frac.cmpInt v 1 = .eq then .ok [] else .ok [.num v]
  else if isOne lsub then .ok [rsub]
  else if isOne rsub then .ok [lsub]
  else if cmpBase lsub rsub = .eq then do
    let lp := unpackPower lsub
    let rp := unpackPower rsub
    let ne ← rec (.sumOp [lp.2, rp.2])
    let nf ← rec (.power lp.1 ne)
    if isOne nf then .ok [] else .ok [nf]
  else .ok [lsub, rsub]

/-- The Leibniz loop of `simplify_differentiation`'s `ProdOp` case: for each
factor position, differentiate that factor (through
`automatic_simplify_function`) and re-multiply with deep copies of the
untouched factors; `done` holds the already-passed prefix in reverse. -/
def leibnizSummands (rec : SimpCall → SimpRes) (var : Expr) :
    List Expr → List Expr → Except SimpErr (List Expr)
  | _, [] => .ok []
  | done, x :: rest => do
    let dx ← rec (.func "diff" [x, var])
    let s ← rec (.prodOp (done.reverse ++ dx :: rest))
    let others ← leibnizSummands rec var (x :: done) rest
    .ok (s :: others)

/-- The fuel-indexed interpreter of the `Simplifier` family (compare.cpp).
Each case is the body of the corresponding C++ routine; every (mutual)
recursive call consumes one unit of fuel. -/
def simpGo : Nat → SimpCall → SimpRes
  | 0, _ => .error .fuelOut
  | f + 1, c =>
    match c with
    | .impl e =>
      match e with
      | .sum cs => do
        let cs' ← mapExc (fun x => simpGo f (.impl x)) cs
        simpGo f (.sumOp cs')
      | .prod cs => do
        let cs' ← mapExc (fun x => simpGo f (.impl x)) cs
        simpGo f (.prodOp cs')
      | .pow b e => do
        let b' ← simpGo f (.impl b)
        let e' ← simpGo f (.impl e)
        simpGo f (.power b' e')
      | .fn n args => do
        let args' ← mapExc (fun x => simpGo f (.impl x)) args
        simpGo f (.func n args')
      | e => .ok e
    | .sumOp cs => do
      let merged ← mergeRev (sumCombine (simpGo f)) [] (sortByCmp (assocExpandSum cs))
      match merged with
      | [] => .ok (.num (mkFracInt 0))
      | [x] => .ok x
      | out => .ok (.sum out)
    | .prodOp cs => do
      let merged ← mergeRev (prodCombine (simpGo f)) [] (sortByCmp (assocExpandProd cs))
      match merged with
      | [] => .ok (.num (mkFracInt 1))
      | [x] => .ok x
      | out => .ok (.prod out)
    | .power b e =>
      if isZero b then
        match e with
        | .num v =>
          match Frac.cmpInt v 0 with
          | .gt => .ok (.num (mkFracInt 0))
          | .eq => .ok (.num (mkFracInt 1))
          | .lt => .ok .undef
        | _ => .ok (.pow b e)
      else if isOne b then .ok (.num (mkFracInt 1))
      else if isIntegral e then simpGo f (.intPower b e)
      else .ok (.pow b e)
    | .intPower b e =>
      if isZero e then .ok (.num (mkFracInt 1))
      else if isOne e then .ok b
      else
        match b with
        | .num bv =>
          match e with
          | .num ev =>
            if ev.isInteger then .ok (.num (Frac.powInt bv ev.num))
            else .error .thrown
          | _ => .error .thrown
        | .pow ib ie => do
          let ne ← simpGo f (.prodOp [ib, e])
          simpGo f (.power ie ne)
        | .prod fs => do
          let ps ← mapExc (fun t => simpGo f (.power t e)) fs
          simpGo f (.prodOp ps)
        | _ => .ok (.pow b e)
    | .func n args =>
      if n = "diff" then simpGo f (.diffFn args)
      else .ok (.fn n args)
    | .diffFn args =>
      match args with
      | [expr, var] =>
        match var with
        | .sym vname =>
          match expr with
          | .sym _ =>
            if cmpExpr expr var = .eq then .ok (.num (mkFracInt 1))
            else .ok (.num (mkFracInt 0))
          | .num _ => .ok (.num (mkFracInt 0))
          | .pow base expv =>
            if isConstant expv [vname] then do
              let p1 ← simpGo f (.sumOp [expv, .num (mkFracInt (-1))])
              let p2 ← simpGo f (.power base p1)
              let p3 ← simpGo f (.func "diff" [base, var])
              simpGo f (.prodOp [expv, p2, p3])
            else .error .thrown
          | .prod factors => do
            let summands ← leibnizSummands (simpGo f) var [] factors
            simpGo f (.sumOp summands)
          | .sum summands =>
            simpGo f (.sumOp (summands.map (fun s => Expr.fn "diff" [s, var])))
          | .fn n2 args2 => .ok (.fn "diff" [.fn n2 args2, var])
          | .undef => .ok .undef
        | _ => .error .thrown
      | _ => .error .thrown

/-- `Simplifier::automatic_simplify`: run the bottom-up canonicalizer. -/
def simplify (fuel : Nat) (x : Expr) : SimpRes := simpGo fuel (.impl x)

theorem intPowLoopF_eq (f : Nat) (base ret : Int) (e : Nat) (hf : e < f) :
    intPowLoopF f base ret e = ret * base ^ e := by
  induction f generalizing base ret e with
  | zero => omega
  | succ f ih =>
    rw [intPowLoopF]
    by_cases h0 : e = 0
    · simp [h0]
    · have hlt : e / 2 < e := Nat.div_lt_self (Nat.pos_of_ne_zero h0) (by omega)
      by_cases h2 : e % 2 = 0
      · have he : 2 * (e / 2) = e := by omega
        simp only [h0, h2, if_false, if_true]
        rw [ih _ _ _ (by omega), ← pow_two, ← pow_mul, he]
      · have he : 2 * (e / 2) + 1 = e := by omega
        simp only [h0, h2, if_false]
        rw [ih _ _ _ (by omega), ← pow_two, ← pow_mul, mul_assoc, ← pow_succ', he]

theorem intPowLoop_eq (base ret : Int) (e : Nat) :
    intPowLoop base ret e = ret * base ^ e :=
  intPowLoopF_eq _ _ _ _ (by omega)

theorem intPow_nonneg_eq (b : Int) (e : Int) (he : 0 ≤ e) :
    intPow b e = b ^ e.toNat := by
  rw [intPow, if_neg (by omega), intPowLoop_eq, one_mul]

theorem mkFrac_normalized (n d : Int) (hd : d ≠ 0) : (mkFrac n d).normalized := by
  unfold mkFrac Frac.simplifyFraction
  have hg : (0 : Int) < Int.gcd n d := by
    have := Int.gcd_pos_of_ne_zero_right n hd
    exact_mod_cast this
  have hgdvd_n : (Int.gcd n d : Int) ∣ n := Int.gcd_dvd_left
  have hgdvd_d : (Int.gcd n d : Int) ∣ d := Int.gcd_dvd_right
  have hn : (n.tdiv (Int.gcd n d)) = n / (Int.gcd n d : Int) :=
    Int.tdiv_eq_ediv_of_dvd hgdvd_n
  have hd' : (d.tdiv (Int.gcd n d)) = d / (Int.gcd n d : Int) :=
    Int.tdiv_eq_ediv_of_dvd hgdvd_d
  have hdg : d / (Int.gcd n d : Int) ≠ 0 := by
    intro h
    have := Int.ediv_mul_cancel hgdvd_d
    rw [h, zero_mul] at this
    exact hd this.symm
  have hcop : Int.gcd (n / (Int.gcd n d : Int)) (d / (Int.gcd n d : Int)) = 1 :=
    Int.gcd_div_gcd_div_gcd (by exact_mod_cast hg)
  constructor
  · show Int.gcd (n.tdiv _ * _) (d.tdiv _ * _) = 1
    rw [hn, hd']
    rw [Int.gcd, Int.natAbs_mul, Int.natAbs_mul]
    rw [Int.natAbs_sign_of_nonzero hdg, Nat.mul_one, Nat.mul_one]
    exact hcop
  · show (0 : Int) < d.tdiv _ * _
    rw [hd']
    rcases lt_trichotomy (d / (Int.gcd n d : Int)) 0 with h | h | h
    · rw [Int.sign_eq_neg_one_of_neg h]
      omega
    · exact absurd h hdg
    · rw [Int.sign_eq_one_of_pos h]
      omega

theorem frac_add_normalized (a b : Frac) (ha : a.normalized) (hb : b.normalized) :
    (a.add b).normalized :=
  mkFrac_normalized _ _ (by have := ha.2; have := hb.2; positivity)

theorem frac_sub_normalized (a b : Frac) (ha : a.normalized) (hb : b.normalized) :
    (a.sub b).normalized :=
  mkFrac_normalized _ _ (by have := ha.2; have := hb.2; positivity)

theorem frac_mul_normalized (a b : Frac) (ha : a.normalized) (hb : b.normalized) :
    (a.mul b).normalized :=
  mkFrac_normalized _ _ (by have := ha.2; have := hb.2; positivity)

theorem frac_div_normalized (a b : Frac) (ha : a.normalized) (hb : b.normalized)
    (hbn : b.num ≠ 0) : (a.div b).normalized :=
  mkFrac_normalized _ _ (by have := ha.2; exact mul_ne_zero (by omega) hbn)

theorem frac_powInt_normalized (a : Frac) (e : Int) (ha : a.normalized)
    (h : 0 ≤ e ∨ a.num ≠ 0) : (a.powInt e).normalized := by
  unfold Frac.powInt
  by_cases he : e < 0
  · rcases h with h | h
    · omega
    · rw [if_pos he]
      refine mkFrac_normalized _ _ ?_
      rw [intPow_nonneg_eq _ _ (by omega)]
      exact pow_ne_zero _ h
  · rw [if_neg he]
    refine mkFrac_normalized _ _ ?_
    rw [intPow_nonneg_eq _ _ (by omega)]
    have := ha.2
    exact pow_ne_zero _ (by omega)

theorem Expr.size_pos (e : Expr) : 0 < e.size := by
  cases e <;> simp [Expr.size]

theorem Expr.sizeList_reverse (l : List Expr) :
    Expr.sizeList l.reverse = Expr.sizeList l := by
  induction l with
  | nil => rfl
  | cons x xs ih =>
    rw [List.reverse_cons]
    have append : ∀ a b : List Expr,
        Expr.sizeList (a ++ b) = Expr.sizeList a + Expr.sizeList b := by
      intro a b
      induction a with
      | nil => simp [Expr.sizeList]
      | cons y ys ihy => simp [Expr.sizeList, ihy]; omega
    rw [append, ih]
    simp [Expr.sizeList]
    omega

theorem Expr.kindTag_le (e : Expr) : e.kindTag ≤ 6 := by
  cases e <;> simp [Expr.kindTag]

/-- Any two sufficient fuels give `cmpRun` the same value. -/
theorem cmpRun_congr :
    ∀ (N : Nat) (c : CmpCall) (f₁ f₂ : Nat), cmpMeasure c ≤ N →
      cmpMeasure c < f₁ → cmpMeasure c < f₂ → cmpRun f₁ c = cmpRun f₂ c := by
  intro N
  induction N with
  | zero =>
    intro c f₁ f₂ hN h1 h2
    cases c with
    | expr l r =>
      exfalso
      have hl := Expr.size_pos l
      simp only [cmpMeasure] at hN
      omega
    | list ls rs =>
      have hls : ls = [] := by
        cases ls with
        | nil => rfl
        | cons x xs =>
          exfalso
          have := Expr.size_pos x
          simp only [cmpMeasure, Expr.sizeList] at hN
          omega
      have hrs : rs = [] := by
        cases rs with
        | nil => rfl
        | cons y ys =>
          exfalso
          have := Expr.size_pos y
          simp only [cmpMeasure, Expr.sizeList] at hN
          omega
      subst hls
      subst hrs
      obtain ⟨g₁, rfl⟩ : ∃ g, f₁ = g + 1 := ⟨f₁ - 1, by omega⟩
      obtain ⟨g₂, rfl⟩ : ∃ g, f₂ = g + 1 := ⟨f₂ - 1, by omega⟩
      rfl
  | succ N ih =>
    intro c f₁ f₂ hN h1 h2
    obtain ⟨g₁, rfl⟩ : ∃ g, f₁ = g + 1 := ⟨f₁ - 1, by omega⟩
    obtain ⟨g₂, rfl⟩ : ∃ g, f₂ = g + 1 := ⟨f₂ - 1, by omega⟩
    cases c with
    | expr l r =>
      simp only [cmpRun]
      by_cases hk : Expr.kindTag r < Expr.kindTag l
      · rw [if_pos hk, if_pos hk]
        have hr : cmpRun g₁ (.expr r l) = cmpRun g₂ (.expr r l) := by
          refine ih _ _ _ ?_ ?_ ?_ <;> (simp only [cmpMeasure] at *; omega)
        rw [hr]
      · rw [if_neg hk, if_neg hk]
        cases l with
        | num v => cases r <;> rfl
        | prod cs =>
          cases r <;>
            first
            | (simp only [Expr.kindTag] at hk; omega)
            | (dsimp only
               refine ih _ _ _ ?_ ?_ ?_ <;>
                (simp only [cmpMeasure, Expr.size, Expr.sizeList,
                  Expr.sizeList_reverse, Expr.kindTag] at *; omega))
        | pow b e =>
          have hkb := Expr.kindTag_le b
          have hke := Expr.kindTag_le e
          cases r with
          | num v => (simp only [Expr.kindTag] at hk; omega)
          | prod ds => (simp only [Expr.kindTag] at hk; omega)
          | pow b' e' =>
            dsimp only
            have hb : cmpRun g₁ (.expr b b') = cmpRun g₂ (.expr b b') := by
              refine ih _ _ _ ?_ ?_ ?_ <;>
                (simp only [cmpMeasure, Expr.size, Expr.kindTag] at *; omega)
            rw [hb]
            cases cmpRun g₂ (.expr b b') <;> try rfl
            refine ih _ _ _ ?_ ?_ ?_ <;>
              (simp only [cmpMeasure, Expr.size, Expr.kindTag] at *; omega)
          | sum ds =>
            dsimp only
            have hb : cmpRun g₁ (.expr b (.sum ds)) = cmpRun g₂ (.expr b (.sum ds)) := by
              refine ih _ _ _ ?_ ?_ ?_ <;>
                (simp only [cmpMeasure, Expr.size, Expr.kindTag] at *; omega)
            rw [hb]
            cases cmpRun g₂ (.expr b (.sum ds)) <;> try rfl
            refine ih _ _ _ ?_ ?_ ?_ <;>
              (simp only [cmpMeasure, Expr.size, Expr.kindTag] at *; omega)
          | fn n' args' =>
            dsimp only
            have hb : cmpRun g₁ (.expr b (.fn n' args')) = cmpRun g₂ (.expr b (.fn n' args')) := by
              refine ih _ _ _ ?_ ?_ ?_ <;>
                (simp only [cmpMeasure, Expr.size, Expr.kindTag] at *; omega)
            rw [hb]
            cases cmpRun g₂ (.expr b (.fn n' args')) <;> try rfl
            refine ih _ _ _ ?_ ?_ ?_ <;>
              (simp only [cmpMeasure, Expr.size, Expr.kindTag] at *; omega)
          | sym n' =>
            dsimp only
            have hb : cmpRun g₁ (.expr b (.sym n')) = cmpRun g₂ (.expr b (.sym n')) := by
              refine ih _ _ _ ?_ ?_ ?_ <;>
                (simp only [cmpMeasure, Expr.size, Expr.kindTag] at *; omega)
            rw [hb]
            cases cmpRun g₂ (.expr b (.sym n')) <;> try rfl
            refine ih _ _ _ ?_ ?_ ?_ <;>
              (simp only [cmpMeasure, Expr.size, Expr.kindTag] at *; omega)
          | undef =>
            dsimp only
            have hb : cmpRun g₁ (.expr b .undef) = cmpRun g₂ (.expr b .undef) := by
              refine ih _ _ _ ?_ ?_ ?_ <;>
                (simp only [cmpMeasure, Expr.size, Expr.kindTag] at *; omega)
            rw [hb]
            cases cmpRun g₂ (.expr b .undef) <;> try rfl
            refine ih _ _ _ ?_ ?_ ?_ <;>
              (simp only [cmpMeasure, Expr.size, Expr.kindTag] at *; omega)
        | sum cs =>
          cases r <;>
            first
            | (simp only [Expr.kindTag] at hk; omega)
            | (dsimp only
               refine ih _ _ _ ?_ ?_ ?_ <;>
                (simp only [cmpMeasure, Expr.size, Expr.sizeList,
                  Expr.sizeList_reverse, Expr.kindTag] at *; omega))
        | fn n args =>
          cases r with
          | fn n' args' =>
            dsimp only
            cases strCmp n n' <;> try rfl
            refine ih _ _ _ ?_ ?_ ?_ <;>
              (simp only [cmpMeasure, Expr.size, Expr.sizeList,
                Expr.sizeList_reverse, Expr.kindTag] at *; omega)
          | sym n' =>
            dsimp only
            refine ih _ _ _ ?_ ?_ ?_ <;>
              (simp only [cmpMeasure, Expr.size, Expr.sizeList,
                Expr.sizeList_reverse, Expr.kindTag] at *; omega)
          | undef =>
            dsimp only
            refine ih _ _ _ ?_ ?_ ?_ <;>
              (simp only [cmpMeasure, Expr.size, Expr.sizeList,
                Expr.sizeList_reverse, Expr.kindTag] at *; omega)
          | num v => (simp only [Expr.kindTag] at hk; omega)
          | prod ds => (simp only [Expr.kindTag] at hk; omega)
          | pow b' e' => (simp only [Expr.kindTag] at hk; omega)
          | sum ds => (simp only [Expr.kindTag] at hk; omega)
        | sym n => cases r <;> first | rfl | (simp only [Expr.kindTag] at hk; omega)
        | undef => cases r <;> first | rfl | (simp only [Expr.kindTag] at hk; omega)
    | list ls rs =>
      simp only [cmpRun]
      cases ls with
      | nil => cases rs <;> rfl
      | cons x xs =>
        cases rs with
        | nil => rfl
        | cons y ys =>
          dsimp only
          have hkx := Expr.kindTag_le x
          have hxy : cmpRun g₁ (.expr x y) = cmpRun g₂ (.expr x y) := by
            refine ih _ _ _ ?_ ?_ ?_ <;>
              (simp only [cmpMeasure, Expr.sizeList] at *; omega)
          rw [hxy]
          cases cmpRun g₂ (.expr x y) <;> try rfl
          refine ih _ _ _ ?_ ?_ ?_ <;>
            (simp only [cmpMeasure, Expr.sizeList] at *; omega)

/-- A sufficiently fuelled `cmpRun` on an expression pair is `cmpExpr`. -/
theorem cmpExpr_run (f : Nat) (l r : Expr) (h : cmpMeasure (.expr l r) < f) :
    cmpRun f (.expr l r) = cmpExpr l r :=
  cmpRun_congr (cmpMeasure (.expr l r)) _ _ _ le_rfl h (by omega)

/-- A sufficiently fuelled `cmpRun` on a list pair is `cmpListRev`. -/
theorem cmpListRev_run (f : Nat) (ls rs : List Expr)
    (h : cmpMeasure (.list ls rs) < f) :
    cmpRun f (.list ls rs) = cmpListRev ls rs :=
  cmpRun_congr (cmpMeasure (.list ls rs)) _ _ _ le_rfl h (by omega)

theorem cmpMeasure_expr_le (l r : Expr) :
    cmpMeasure (.expr l r) ≤ 8 * (l.size + r.size) + 6 := by
  have := Expr.kindTag_le l
  simp only [cmpMeasure]
  omega

theorem cmpExpr_gtkind (l r : Expr) (h : Expr.kindTag r < Expr.kindTag l) :
    cmpExpr l r = (cmpExpr r l).swap := by
  have key : cmpRun (cmpMeasure (.expr l r) + 1) (.expr l r)
      = (cmpRun (cmpMeasure (.expr l r)) (.expr r l)).swap := by
    simp only [cmpRun]
    rw [if_pos h]
  show cmpRun (cmpMeasure (.expr l r) + 1) (.expr l r) = (cmpExpr r l).swap
  rw [key, cmpExpr_run _ r l (by simp only [cmpMeasure]; omega)]

theorem cmpListRev_cons_cons (x y : Expr) (xs ys : List Expr) :
    cmpListRev (x :: xs) (y :: ys) =
      (match cmpExpr x y with
       | .eq => cmpListRev xs ys
       | c => c) := by
  show (match cmpRun (cmpMeasure (.list (x :: xs) (y :: ys))) (.expr x y) with
        | .eq => cmpRun (cmpMeasure (.list (x :: xs) (y :: ys))) (.list xs ys)
        | c => c) = _
  rw [cmpExpr_run _ x y (by
    refine lt_of_le_of_lt (cmpMeasure_expr_le x y) ?_
    simp only [cmpMeasure, Expr.sizeList]
    omega)]
  rw [cmpListRev_run _ xs ys (by
    have := Expr.size_pos x
    have := Expr.size_pos y
    simp only [cmpMeasure, Expr.sizeList]
    omega)]

theorem cmpExpr_prod_prod (cs ds : List Expr) :
    cmpExpr (.prod cs) (.prod ds) = cmpListRev cs.reverse ds.reverse := by
  show cmpRun (cmpMeasure (.expr (.prod cs) (.prod ds)))
      (.list cs.reverse ds.reverse) = _
  refine cmpListRev_run _ _ _ ?_
  simp only [cmpMeasure, Expr.size, Expr.sizeList_reverse, Expr.kindTag]
  omega

theorem cmpExpr_sum_sum (cs ds : List Expr) :
    cmpExpr (.sum cs) (.sum ds) = cmpListRev cs.reverse ds.reverse := by
  show cmpRun (cmpMeasure (.expr (.sum cs) (.sum ds)))
      (.list cs.reverse ds.reverse) = _
  refine cmpListRev_run _ _ _ ?_
  simp only [cmpMeasure, Expr.size, Expr.sizeList_reverse, Expr.kindTag]
  omega

theorem cmpExpr_pow_pow (b e b' e' : Expr) :
    cmpExpr (.pow b e) (.pow b' e') =
      (match cmpExpr b b' with
       | .eq => cmpExpr e e'
       | c => c) := by
  show (match cmpRun (cmpMeasure (.expr (.pow b e) (.pow b' e'))) (.expr b b') with
        | .eq => cmpRun (cmpMeasure (.expr (.pow b e) (.pow b' e'))) (.expr e e')
        | c => c) = _
  rw [cmpExpr_run _ b b' (by
    refine lt_of_le_of_lt (cmpMeasure_expr_le b b') ?_
    simp only [cmpMeasure, Expr.size, Expr.kindTag]
    omega)]
  rw [cmpExpr_run _ e e' (by
    refine lt_of_le_of_lt (cmpMeasure_expr_le e e') ?_
    simp only [cmpMeasure, Expr.size, Expr.kindTag]
    omega)]

theorem cmpExpr_fn_fn (n n' : String) (args args' : List Expr) :
    cmpExpr (.fn n args) (.fn n' args') =
      (match strCmp n n' with
       | .eq => cmpListRev args.reverse args'.reverse
       | c => c) := by
  show (match strCmp n n' with
        | .eq => cmpRun (cmpMeasure (.expr (.fn n args) (.fn n' args')))
            (.list args.reverse args'.reverse)
        | c => c) = _
  rw [cmpListRev_run _ _ _ (by
    simp only [cmpMeasure, Expr.size, Expr.sizeList_reverse, Expr.kindTag]
    omega)]

theorem cmpExpr_prod_other (cs : List Expr) (r : Expr)
    (h0 : r.kindTag ≠ 0) (h1 : r.kindTag ≠ 1) :
    cmpExpr (.prod cs) r = cmpListRev cs.reverse [r] := by
  have hb : cmpMeasure (.list cs.reverse [r])
      < cmpMeasure (.expr (.prod cs) r) := by
    simp only [cmpMeasure, Expr.size, Expr.sizeList, Expr.sizeList_reverse,
      Expr.kindTag]
    omega
  cases r <;> simp only [Expr.kindTag] at h0 h1 <;> try omega
  all_goals exact cmpListRev_run _ _ _ hb

theorem cmpExpr_sum_other (cs : List Expr) (r : Expr)
    (h3 : 3 < r.kindTag) :
    cmpExpr (.sum cs) r = cmpListRev cs.reverse [r] := by
  have hb : cmpMeasure (.list cs.reverse [r])
      < cmpMeasure (.expr (.sum cs) r) := by
    simp only [cmpMeasure, Expr.size, Expr.sizeList, Expr.sizeList_reverse,
      Expr.kindTag]
    omega
  cases r <;> simp only [Expr.kindTag] at h3 <;> try omega
  all_goals exact cmpListRev_run _ _ _ hb

theorem intCmp_swap (a b : Int) : intCmp a b = (intCmp b a).swap := by
  rcases lt_trichotomy a b with h | h | h
  · have h1 : ¬ b < a := by omega
    have h2 : b ≠ a := by omega
    simp [intCmp, h, h1, h2, Ordering.swap]
  · subst h
    simp [intCmp, lt_irrefl, Ordering.swap]
  · have h1 : ¬ a < b := by omega
    have h2 : a ≠ b := by omega
    simp [intCmp, h, h1, h2, Ordering.swap]

theorem intCmp_refl (a : Int) : intCmp a a = .eq := by
  simp [intCmp, lt_irrefl]

theorem fracCmp_swap (a b : Frac) : Frac.cmp a b = (Frac.cmp b a).swap :=
  intCmp_swap _ _

theorem fracCmp_refl (a : Frac) : Frac.cmp a a = .eq := intCmp_refl _

theorem strCmpAux_swap (a b : List Char) :
    strCmpAux a b = (strCmpAux b a).swap := by
  induction a generalizing b with
  | nil => cases b <;> rfl
  | cons c cs ih =>
    cases b with
    | nil => rfl
    | cons d ds =>
      simp only [strCmpAux]
      rcases Nat.lt_trichotomy c.toNat d.toNat with h | h | h
      · rw [if_pos h, if_neg (by omega), if_pos h]
        rfl
      · rw [if_neg (by omega), if_neg (by omega), if_neg (by omega),
          if_neg (by omega)]
        exact ih ds
      · rw [if_neg (by omega), if_pos h, if_pos h]
        rfl

theorem strCmp_swap (a b : String) : strCmp a b = (strCmp b a).swap :=
  strCmpAux_swap a.data b.data

theorem strCmpAux_refl (a : List Char) : strCmpAux a a = .eq := by
  induction a with
  | nil => rfl
  | cons c cs ih =>
    simp only [strCmpAux, if_neg (lt_irrefl c.toNat)]
    exact ih

theorem strCmp_refl (a : String) : strCmp a a = .eq :=
  strCmpAux_refl a.data

theorem Expr.size_le_of_mem {x : Expr} {l : List Expr} (h : x ∈ l) :
    x.size ≤ Expr.sizeList l := by
  induction l with
  | nil => cases h
  | cons y ys ih =>
    rcases List.mem_cons.mp h with rfl | h'
    · simp [Expr.sizeList]
      omega
    · have := ih h'
      simp [Expr.sizeList]
      omega

theorem ordering_eq_swap (o p : Ordering) : o = p.swap ↔ p = o.swap := by
  cases o <;> cases p <;> simp [Ordering.swap]

theorem cmpListRev_swap (ls rs : List Expr)
    (ih : ∀ x ∈ ls, ∀ y ∈ rs, cmpExpr x y = (cmpExpr y x).swap) :
    cmpListRev ls rs = (cmpListRev rs ls).swap := by
  induction ls generalizing rs with
  | nil => cases rs <;> rfl
  | cons x xs ihl =>
    cases rs with
    | nil => rfl
    | cons y ys =>
      have hxy := ih x (by simp) y (by simp)
      have hyx := (ordering_eq_swap _ _).mp hxy
      have htail := ihl ys (fun a ha b hb => ih a (by simp [ha]) b (by simp [hb]))
      rw [cmpListRev_cons_cons, cmpListRev_cons_cons]
      cases hc : cmpExpr x y with
      | eq =>
        rw [hc] at hyx
        simp only [Ordering.swap] at hyx
        rw [hyx, htail]
      | lt =>
        rw [hc] at hyx
        simp only [Ordering.swap] at hyx
        rw [hyx]
        rfl
      | gt =>
        rw [hc] at hyx
        simp only [Ordering.swap] at hyx
        rw [hyx]
        rfl

theorem cmpListRev_refl (ls : List Expr)
    (ih : ∀ x ∈ ls, cmpExpr x x = .eq) : cmpListRev ls ls = .eq := by
  induction ls with
  | nil => rfl
  | cons x xs ihl =>
    have hx := ih x (by simp)
    rw [cmpListRev_cons_cons, hx, ihl (fun a ha => ih a (by simp [ha]))]

theorem cmpExpr_refl (x : Expr) : cmpExpr x x = .eq := by
  suffices h : ∀ N x, Expr.size x ≤ N → cmpExpr x x = .eq from h _ x le_rfl
  intro N
  induction N with
  | zero =>
    intro x hx
    have := Expr.size_pos x
    omega
  | succ N ih =>
    intro x hx
    cases x with
    | num v => exact fracCmp_refl v
    | prod cs =>
      rw [cmpExpr_prod_prod]
      refine cmpListRev_refl _ (fun a ha => ih a ?_)
      have := Expr.size_le_of_mem (List.mem_reverse.mp ha)
      simp only [Expr.size] at hx
      omega
    | pow b e =>
      rw [cmpExpr_pow_pow]
      simp only [Expr.size] at hx
      rw [ih b (by omega)]
      exact ih e (by omega)
    | sum cs =>
      rw [cmpExpr_sum_sum]
      refine cmpListRev_refl _ (fun a ha => ih a ?_)
      have := Expr.size_le_of_mem (List.mem_reverse.mp ha)
      simp only [Expr.size] at hx
      omega
    | fn n args =>
      rw [cmpExpr_fn_fn, strCmp_refl]
      refine cmpListRev_refl _ (fun a ha => ih a ?_)
      have := Expr.size_le_of_mem (List.mem_reverse.mp ha)
      simp only [Expr.size] at hx
      omega
    | sym n => exact strCmp_refl n
    | undef => rfl

theorem cmpExpr_swap (l r : Expr) : cmpExpr l r = (cmpExpr r l).swap := by
  suffices h : ∀ N l r, Expr.size l + Expr.size r ≤ N →
      cmpExpr l r = (cmpExpr r l).swap from h _ l r le_rfl
  intro N
  induction N with
  | zero =>
    intro l r h
    have := Expr.size_pos l
    omega
  | succ N ih =>
    intro l r hN
    rcases Nat.lt_trichotomy (Expr.kindTag l) (Expr.kindTag r) with hlt | heq | hgt
    · rw [cmpExpr_gtkind r l hlt, Ordering.swap_swap]
    · cases l <;> cases r <;> simp only [Expr.kindTag] at heq <;>
        try exact absurd heq (by decide)
      · exact fracCmp_swap _ _
      · rename_i cs ds
        rw [cmpExpr_prod_prod, cmpExpr_prod_prod]
        refine cmpListRev_swap _ _ (fun a ha b hb => ih a b ?_)
        have := Expr.size_le_of_mem (List.mem_reverse.mp ha)
        have := Expr.size_le_of_mem (List.mem_reverse.mp hb)
        simp only [Expr.size] at hN
        omega
      · rename_i b e b' e'
        rw [cmpExpr_pow_pow, cmpExpr_pow_pow]
        simp only [Expr.size] at hN
        have hb : cmpExpr b b' = (cmpExpr b' b).swap := ih b b' (by omega)
        have he : cmpExpr e e' = (cmpExpr e' e).swap := ih e e' (by omega)
        cases hc : cmpExpr b' b
        · rw [hc] at hb
          simp only [Ordering.swap] at hb
          rw [hb]
          rfl
        · rw [hc] at hb
          simp only [Ordering.swap] at hb
          rw [hb]
          exact he
        · rw [hc] at hb
          simp only [Ordering.swap] at hb
          rw [hb]
          rfl
      · rename_i cs ds
        rw [cmpExpr_sum_sum, cmpExpr_sum_sum]
        refine cmpListRev_swap _ _ (fun a ha b hb => ih a b ?_)
        have := Expr.size_le_of_mem (List.mem_reverse.mp ha)
        have := Expr.size_le_of_mem (List.mem_reverse.mp hb)
        simp only [Expr.size] at hN
        omega
      · rename_i n args n' args'
        rw [cmpExpr_fn_fn, cmpExpr_fn_fn]
        have hs : strCmp n n' = (strCmp n' n).swap := strCmp_swap n n'
        cases hc : strCmp n' n
        · rw [hc] at hs
          simp only [Ordering.swap] at hs
          rw [hs]
          rfl
        · rw [hc] at hs
          simp only [Ordering.swap] at hs
          rw [hs]
          refine cmpListRev_swap _ _ (fun a ha b hb => ih a b ?_)
          have := Expr.size_le_of_mem (List.mem_reverse.mp ha)
          have := Expr.size_le_of_mem (List.mem_reverse.mp hb)
          simp only [Expr.size] at hN
          omega
        · rw [hc] at hs
          simp only [Ordering.swap] at hs
          rw [hs]
          rfl
      · exact strCmp_swap _ _
      · rfl
    · exact cmpExpr_gtkind l r hgt

/-- C6 (counterexample): `cmp_expression` is not a strong total order.  With
`A = f(x)`, `B = x`, `C = g(x)` the code reports `A = B` and `B = C` but
`A < C`, so equality under the order is not transitive; and `A = B` holds for
structurally different `A`, `B`, so the order is not antisymmetric. -/
theorem claim_C6_counterexample :
    cmpExpr (.fn "f" [.sym "x"]) (.sym "x") = .eq ∧
    cmpExpr (.sym "x") (.fn "g" [.sym "x"]) = .eq ∧
    cmpExpr (.fn "f" [.sym "x"]) (.fn "g" [.sym "x"]) = .lt ∧
    Expr.fn "f" [.sym "x"] ≠ Expr.sym "x" :=
  ⟨by decide, by decide, by decide, fun h => Expr.noConfusion h⟩

/-- C6 (amended): `cmp_expression` always returns exactly one of
less/equal/greater, and reversing the arguments reverses the result
(`cmp(a,b) = reverse(cmp(b,a))`); the order is however neither transitive
nor antisymmetric on arbitrary expressions (see the counterexample). -/
theorem claim_C6_amended (a b : Expr) :
    (cmpExpr a b = .lt ∨ cmpExpr a b = .eq ∨ cmpExpr a b = .gt) ∧
    cmpExpr a b = (cmpExpr b a).swap := by
  refine ⟨?_, cmpExpr_swap a b⟩
  cases cmpExpr a b
  · exact Or.inl rfl
  · exact Or.inr (Or.inl rfl)
  · exact Or.inr (Or.inr rfl)

/-- C10 (counterexample): the singleton-`Product` identification fails when
the wrapped expression is itself a `Product`: both sides then have the
`Product` kind, so the child lists `[x]` and `x`'s children are compared
instead, and for `x = Product(a, b)` the result is `greater`, not `equal`. -/
theorem claim_C10_counterexample :
    cmpExpr (.prod [.prod [.sym "a", .sym "b"]]) (.prod [.sym "a", .sym "b"])
      = .gt := by decide

/-- C10 (amended): for every expression `x` whose variant is neither `Number`
nor `Product`, `cmp_expression` reports `Product([x])` as equal to `x` (the
product's child list is compared against the singleton `[x]`); for a
`Product` the child-list rule applies instead and can give a different
answer. -/
theorem claim_C10_amended (x : Expr) (h0 : x.kindTag ≠ 0) (h1 : x.kindTag ≠ 1) :
    cmpExpr (.prod [x]) x = .eq := by
  rw [cmpExpr_prod_other [x] x h0 h1]
  show cmpListRev [x] [x] = .eq
  rw [cmpListRev_cons_cons, cmpExpr_refl]
  rfl

/-- C10 (witness): the amended identification at the concrete input
`x = Symbol "a"`. -/
theorem claim_C10_amended_witness :
    (Expr.sym "a").kindTag ≠ 0 ∧ (Expr.sym "a").kindTag ≠ 1 ∧
    cmpExpr (.prod [.sym "a"]) (.sym "a") = .eq :=
  ⟨by decide, by decide, claim_C10_amended (.sym "a") (by decide) (by decide)⟩

/-- C8: the infix printer on `Product(Number(-1), y)`.  The special first
case of `Product::str` sets the accumulator to `"-"`, but the accumulator is
then non-empty, so the next factor is still appended as `"*" + factor`: the
node prints as `"-*y"`, not `"-y"` as the printer contract states. -/
theorem claim_C8_printer :
    Expr.str (.prod [.num (mkFracInt (-1)), .sym "y"]) = "-*y" ∧
    "-*y" ≠ "-y" := by
  constructor
  · simp [Expr.str, prodStrAux, strBrace, isNumNegOne, fracToString, mkFracInt,
          mkFrac, Frac.simplifyFraction, Frac.cmpInt, intCmp, precOf]
  · decide

/-! ## Helper facts: values of the integer comparison and the predicates -/

theorem intCmp_of_lt {a b : Int} (h : a < b) : intCmp a b = .lt := by
  rw [intCmp, if_pos h]

theorem intCmp_of_gt {a b : Int} (h : b < a) : intCmp a b = .gt := by
  rw [intCmp, if_neg (by omega), if_neg (by omega)]

theorem intCmp_of_eq {a b : Int} (h : a = b) : intCmp a b = .eq := by
  rw [intCmp, if_neg (by omega), if_pos h]

theorem intCmp_eq_iff (a b : Int) : intCmp a b = .eq ↔ a = b := by
  constructor
  · intro h
    by_contra hne
    rcases lt_or_gt_of_ne hne with hlt | hgt
    · rw [intCmp_of_lt hlt] at h
      exact Ordering.noConfusion h
    · rw [intCmp_of_gt hgt] at h
      exact Ordering.noConfusion h
  · exact intCmp_of_eq

theorem isZero_num_true (v : Frac) : isZero (.num v) = true ↔ v.num = 0 := by
  show decide (Frac.cmp v (mkFracInt 0) = .eq) = true ↔ _
  simp only [decide_eq_true_eq]
  show intCmp (v.num * 1) (0 * v.denom) = .eq ↔ _
  rw [mul_one, zero_mul, intCmp_eq_iff]

theorem isOne_num_true (v : Frac) : isOne (.num v) = true ↔ v.num = v.denom := by
  show decide (Frac.cmp v (mkFracInt 1) = .eq) = true ↔ _
  simp only [decide_eq_true_eq]
  show intCmp (v.num * 1) (1 * v.denom) = .eq ↔ _
  rw [mul_one, one_mul, intCmp_eq_iff]

theorem isIntegral_num_true (v : Frac) :
    isIntegral (.num v) = true ↔ v.denom = 1 := by
  show decide (v.denom = 1) = true ↔ _
  simp only [decide_eq_true_eq]

/-! ## The remaining claims -/

/-- C1 (code bug): `automatic_simplify_product` never checks for a zero
factor, so `simplify(Product(Number(0), y))` keeps the `Product` with its
`Number(0)` child instead of collapsing to `Number(0)`. -/
theorem claim_C1 :
    simplify 100 (.prod [.num (mkFracInt 0), .sym "y"])
      = .ok (.prod [.num (mkFracInt 0), .sym "y"]) ∧
    Expr.prod [.num (mkFracInt 0), .sym "y"] ≠ .num (mkFracInt 0) :=
  ⟨rfl, fun h => Expr.noConfusion h⟩

/-- C2 (code bug): the simplifier is not idempotent: simplifying
`diff(x + y, x)` leaves a `Sum` of two unevaluated `diff` calls, and
simplifying that result again yields the different expression `Number(1)`. -/
theorem claim_C2 :
    simplify 100 (.fn "diff" [.sum [.sym "x", .sym "y"], .sym "x"])
      = .ok (.sum [.fn "diff" [.sym "x", .sym "x"],
                   .fn "diff" [.sym "y", .sym "x"]]) ∧
    simplify 100 (.sum [.fn "diff" [.sym "x", .sym "x"],
                        .fn "diff" [.sym "y", .sym "x"]])
      = .ok (.num (mkFracInt 1)) ∧
    Expr.sum [.fn "diff" [.sym "x", .sym "x"], .fn "diff" [.sym "y", .sym "x"]]
      ≠ .num (mkFracInt 1) :=
  ⟨rfl, rfl, fun h => Expr.noConfusion h⟩

/-- C3 (counterexample): `diff` applied to one argument, or with a
non-`Symbol` second argument, makes the simplifier throw
`std::runtime_error` (modelled as `.error .thrown`); it does not return
`Undefined`. -/
theorem claim_C3_counterexample :
    simplify 100 (.fn "diff" [.sym "x"]) = .error .thrown ∧
    simplify 100 (.fn "diff" [.sym "x", .num (mkFracInt 2)]) = .error .thrown ∧
    (Except.error .thrown : SimpRes) ≠ .ok .undef :=
  ⟨rfl, rfl, fun h => Except.noConfusion h⟩

/-- C3 (amended): a `diff` application whose argument count is not two, or
whose second argument is not a `Symbol` (kind tag `5`), raises
`std::runtime_error` (modelled `.error .thrown`) instead of returning
`Undefined`. -/
theorem claim_C3_amended (f : Nat) (args : List Expr)
    (h : args.length ≠ 2 ∨ ∃ x v, args = [x, v] ∧ v.kindTag ≠ 5) :
    simpGo (f + 2) (.func "diff" args) = .error .thrown := by
  show simpGo (f + 1) (.diffFn args) = .error .thrown
  rcases args with _ | ⟨x, _ | ⟨v, _ | ⟨w, t⟩⟩⟩
  · rfl
  · rfl
  · rcases h with h | ⟨x', v', heq, hv⟩
    · simp at h
    · injection heq with h1 h2
      injection h2 with h3 _
      subst h1
      subst h3
      cases v <;> first | rfl | (simp only [Expr.kindTag] at hv; omega)
  · rfl

/-- C3 (witness): the amended behaviour at the concrete one-argument call
`diff(x)`. -/
theorem claim_C3_amended_witness :
    (([Expr.sym "x"] : List Expr).length ≠ 2 ∨
      ∃ x v, ([Expr.sym "x"] : List Expr) = [x, v] ∧ v.kindTag ≠ 5) ∧
    simpGo 2 (.func "diff" [.sym "x"]) = .error .thrown :=
  ⟨Or.inl (by decide), claim_C3_amended 0 [.sym "x"] (Or.inl (by decide))⟩

/-- C4 (counterexample): differentiating `Power(x, x)` with respect to `x`
(an exponent that depends on the variable) throws instead of returning the
unevaluated `Function("diff", …)` application. -/
theorem claim_C4_counterexample :
    simplify 100 (.fn "diff" [.pow (.sym "x") (.sym "x"), .sym "x"])
      = .error .thrown ∧
    (Except.error .thrown : SimpRes)
      ≠ .ok (.fn "diff" [.pow (.sym "x") (.sym "x"), .sym "x"]) :=
  ⟨rfl, fun h => Except.noConfusion h⟩

/-- C4 (amended): for `Power(b, p)` whose exponent `p` is not constant in
the differentiation variable, `simplify_differentiation` throws
(`.error .thrown`) rather than returning an unevaluated
`Function("diff", …)` application. -/
theorem claim_C4_amended (f : Nat) (base expv : Expr) (vname : String)
    (h : isConstant expv [vname] = false) :
    simpGo (f + 1) (.diffFn [.pow base expv, .sym vname]) = .error .thrown := by
  simp only [simpGo]
  rw [if_neg (by simp [h])]

/-- C4 (witness): the amended behaviour at the concrete input
`diff(Power(x, x), x)`. -/
theorem claim_C4_amended_witness :
    isConstant (.sym "x") ["x"] = false ∧
    simpGo 1 (.diffFn [.pow (.sym "x") (.sym "x"), .sym "x"]) = .error .thrown :=
  ⟨by decide, claim_C4_amended 0 (.sym "x") (.sym "x") "x" (by decide)⟩

/-- C5 (counterexample): for the integer-valued exponent `-1` and base `0`
(both `Number`s), `simplify(Power(0, -1))` is the `Undefined` node, not a
`Number`. -/
theorem claim_C5_counterexample :
    simplify 100 (.pow (.num (mkFracInt 0)) (.num (mkFracInt (-1))))
      = .ok .undef ∧
    (mkFracInt (-1)).isInteger = true ∧
    Expr.undef ≠ .num (mkFracInt 0) :=
  ⟨rfl, rfl, fun h => Expr.noConfusion h⟩

/-- C5 (amended): for a `Number` base `b` and an integer-valued `Number`
exponent `e`, `simplify(Power(b, e))` is a `Number` provided the
combination of a zero base and a negative exponent is excluded (that
combination yields `Undefined` instead; see the counterexample). -/
theorem claim_C5_amended (f : Nat) (b e : Frac) (he : e.denom = 1)
    (hbe : b.num = 0 → 0 ≤ e.num) :
    ∃ q : Frac, simplify (f + 3) (.pow (.num b) (.num e)) = .ok (.num q) := by
  show ∃ q : Frac, simpGo (f + 2) (.power (.num b) (.num e)) = .ok (.num q)
  by_cases hz : b.num = 0
  · have hiz : isZero (.num b) = true := (isZero_num_true b).mpr hz
    simp only [simpGo]
    rw [if_pos hiz]
    have hc : Frac.cmpInt e 0 = intCmp e.num 0 := by
      rw [Frac.cmpInt, zero_mul]
    rcases (hbe hz).lt_or_eq with hpos | heq0
    · rw [hc, intCmp_of_gt hpos]
      exact ⟨mkFracInt 0, rfl⟩
    · rw [hc, intCmp_of_eq heq0.symm]
      exact ⟨mkFracInt 1, rfl⟩
  · have hiz : ¬ (isZero (.num b) = true) := by
      rw [isZero_num_true]
      exact hz
    simp only [simpGo]
    rw [if_neg hiz]
    by_cases hone : b.num = b.denom
    · rw [if_pos ((isOne_num_true b).mpr hone)]
      exact ⟨mkFracInt 1, rfl⟩
    · rw [if_neg (by rw [isOne_num_true]; exact hone)]
      rw [if_pos ((isIntegral_num_true e).mpr he)]
      by_cases hez : e.num = 0
      · rw [if_pos ((isZero_num_true e).mpr hez)]
        exact ⟨mkFracInt 1, rfl⟩
      · rw [if_neg (by rw [isZero_num_true]; exact hez)]
        by_cases heo : e.num = e.denom
        · rw [if_pos ((isOne_num_true e).mpr heo)]
          exact ⟨b, rfl⟩
        · rw [if_neg (by rw [isOne_num_true]; exact heo)]
          rw [if_pos (show Frac.isInteger e = true by simp [Frac.isInteger, he])]
          exact ⟨Frac.powInt b e.num, rfl⟩

/-- C5 (witness): the amended closure at the concrete input `2 ^ 10`. -/
theorem claim_C5_amended_witness :
    (mkFracInt 10).denom = 1 ∧
    ((mkFracInt 2).num = 0 → (0 : Int) ≤ (mkFracInt 10).num) ∧
    ∃ q : Frac, simplify 103 (.pow (.num (mkFracInt 2)) (.num (mkFracInt 10)))
      = .ok (.num q) :=
  ⟨by decide, by decide,
   claim_C5_amended 100 (mkFracInt 2) (mkFracInt 10) (by decide) (by decide)⟩

/-- C7 (code bug): differentiating a `Sum` leaves the summand derivatives
as unevaluated `Function("diff", …)` nodes: `diff(Sum(x, 2), x)` simplifies
to `Sum(diff(2, x), diff(x, x))` instead of the evaluated `Number(1)`. -/
theorem claim_C7 :
    simplify 100 (.fn "diff" [.sum [.sym "x", .num (mkFracInt 2)], .sym "x"])
      = .ok (.sum [.fn "diff" [.num (mkFracInt 2), .sym "x"],
                   .fn "diff" [.sym "x", .sym "x"]]) ∧
    Expr.sum [.fn "diff" [.num (mkFracInt 2), .sym "x"],
              .fn "diff" [.sym "x", .sym "x"]] ≠ .num (mkFracInt 1) :=
  ⟨rfl, fun h => Expr.noConfusion h⟩

/-- C9: rational normalization: the normalizing constructor establishes
`gcd(num, denom) = 1 ∧ denom > 0` for every nonzero denominator, and
addition, subtraction, multiplication, division (by a nonzero value) and
integer power (nonnegative exponent or nonzero base) preserve it. -/
theorem claim_C9 (n d : Int) (a b : Frac) (e : Int)
    (hd : d ≠ 0) (ha : a.normalized) (hb : b.normalized)
    (hbz : b.num ≠ 0) (he : 0 ≤ e ∨ a.num ≠ 0) :
    (mkFrac n d).normalized ∧ (a.add b).normalized ∧ (a.sub b).normalized ∧
    (a.mul b).normalized ∧ (a.div b).normalized ∧ (a.powInt e).normalized :=
  ⟨mkFrac_normalized n d hd, frac_add_normalized a b ha hb,
   frac_sub_normalized a b ha hb, frac_mul_normalized a b ha hb,
   frac_div_normalized a b ha hb hbz, frac_powInt_normalized a e ha he⟩

/-- C9 (witness): the invariant at the concrete inputs `5/2`, `1/2`, `2/3`
and exponent `-2`. -/
theorem claim_C9_witness :
    (2 : Int) ≠ 0 ∧ (Frac.mk 1 2).normalized ∧ (Frac.mk 2 3).normalized ∧
    (Frac.mk 2 3).num ≠ 0 ∧ ((0 : Int) ≤ -2 ∨ (Frac.mk 1 2).num ≠ 0) ∧
    ((mkFrac 5 2).normalized ∧ ((Frac.mk 1 2).add (Frac.mk 2 3)).normalized ∧
     ((Frac.mk 1 2).sub (Frac.mk 2 3)).normalized ∧
     ((Frac.mk 1 2).mul (Frac.mk 2 3)).normalized ∧
     ((Frac.mk 1 2).div (Frac.mk 2 3)).normalized ∧
     ((Frac.mk 1 2).powInt (-2)).normalized) :=
  ⟨by decide, by decide, by decide, by decide, Or.inr (by decide),
   claim_C9 5 2 ⟨1, 2⟩ ⟨2, 3⟩ (-2) (by decide) (by decide) (by decide)
     (by decide) (Or.inr (by decide))⟩

end Exprtk
